import Mathlib

/-!
Verification of the multi-threaded JSONL parsing pipeline of `misc_utils`
(`src/fs.rs`: `parse_jsonl_multi_threaded`, `MtJsonl::next`, `ProcessingStatus`,
and `src/error.rs`: `MtJsonlError`).

The pipeline consists of a reader thread (reads lines, groups them into
batches of `batchsize` lines, sends them on a bounded channel), a parser
thread (decodes each batch into a vector of per-value results, forwards them),
and a consumer-facing iterator flattening the result batches.

Shallow embedding: each stage is a deterministic function from its input to
the ordered list of messages it sends on its outgoing channel (channels are
FIFO, so the receiving side sees exactly this list).  The reader's `while`
loop is embedded with explicit fuel because it does not terminate when
`batchsize = 0`.  The iterator's `next` is a function on an explicit state,
mirroring `MtJsonl::next`.
-/

set_option autoImplicit false

deriving instance DecidableEq for Except

namespace MtJsonlSpec

/-- Embeds `MtJsonlError` (src/error.rs / the variants constructed in
src/fs.rs): `NotCompleted`, `IoError { msg, file, .. }`,
`ParsingError { source }`.  The `source` payloads are kept as strings. -/
inductive MtJsonlError where
  | notCompleted : MtJsonlError
  | ioError (msg : String) (file : String) : MtJsonlError
  | parsingError (source : String) : MtJsonlError
  deriving DecidableEq, Repr

/-- Embeds `ProcessingStatus<T>` (src/fs.rs lines 522-534): the tagged union
sent over both channels, with variants `Completed`, `Data(T)`, `Error`. -/
inductive ProcessingStatus (T : Type) where
  | completed : ProcessingStatus T
  | data (d : T) : ProcessingStatus T
  | error (e : MtJsonlError) : ProcessingStatus T
  deriving DecidableEq, Repr

/-- A file as seen by the reader thread through `file_open_read` +
`BufReader::read_line`: either opening fails, or the reader obtains the
listed lines in order and afterwards either a clean end-of-file or
(when `readErr` is set) an I/O error on the next `read_line` call. -/
structure FileModel where
  openErr : Bool
  readErr : Bool
  path : String
  lines : List String
  deriving DecidableEq, Repr

/-- Message text used by the reader thread for an open failure (src/fs.rs line 655). -/
def openErrMsg : String := "Background reading thread cannot open file"

/-- Message text used by the reader thread for a read failure (src/fs.rs line 679). -/
def readErrMsg : String := "Background reading thread cannot read line"

/-- Embeds the reader thread's `while !is_eof` loop (src/fs.rs lines 662-703).
One fuel unit is one iteration of the `while` loop.  Returns the list of
messages sent on the lines channel together with a flag telling whether the
loop terminated within the given fuel (`false` = fuel ran out, i.e. the
real loop would still be running).

Each iteration accumulates up to `bs` lines into one batch; a `read_line`
returning `Ok(0)` (end-of-file) sets `is_eof` and leaves the loop after
sending the accumulated batch (which the code sends even when it is empty);
a failing `read_line` sends `Error(IoError)` and returns, discarding the
partial batch; after the loop one `Completed` is sent. -/
def readerFuel : Nat → Nat → Bool → String → List String →
    List (ProcessingStatus (List String)) × Bool
  | 0, _, _, _, _ => ([], false)
  | fuel + 1, bs, readErr, path, lines =>
    if bs ≤ lines.length then
      -- the `for` loop performs `bs` successful `read_line` calls, no EOF seen
      let r := readerFuel fuel bs readErr path (lines.drop bs)
      (ProcessingStatus.data (lines.take bs) :: r.1, r.2)
    else if readErr then
      -- the remaining lines are read, then `read_line` fails:
      -- the partial batch is discarded, one `Error` is sent, the thread returns
      ([ProcessingStatus.error (MtJsonlError.ioError readErrMsg path)], true)
    else
      -- the remaining lines are read, then `read_line` returns `Ok(0)`:
      -- `is_eof` is set, the (possibly empty) batch is sent, then `Completed`
      ([ProcessingStatus.data lines, ProcessingStatus.completed], true)

/-- Embeds the whole reader thread (src/fs.rs lines 640-704): an open failure
sends a single `Error(IoError)` and returns before the loop; otherwise the
read loop runs. -/
def readerRun (fuel bs : Nat) (f : FileModel) :
    List (ProcessingStatus (List String)) × Bool :=
  if f.openErr then
    ([ProcessingStatus.error (MtJsonlError.ioError openErrMsg f.path)], true)
  else
    readerFuel fuel bs f.readErr f.path f.lines

/-- The batches produced by the reader loop on a cleanly-read file: groups of
exactly `bs` lines, with a final (possibly empty) remainder group.  Fuel as
in `readerFuel`. -/
def chunksGo : Nat → Nat → List String → List (List String)
  | 0, _, _ => []
  | fuel + 1, bs, lines =>
    if bs ≤ lines.length then
      lines.take bs :: chunksGo fuel bs (lines.drop bs)
    else
      [lines]

theorem chunksGo_flatten {bs : Nat} (hbs : 1 ≤ bs) :
    ∀ (fuel : Nat) (lines : List String), lines.length < fuel →
      (chunksGo fuel bs lines).flatten = lines := by
  intro fuel
  induction fuel with
  | zero => intro lines h; omega
  | succ n ih =>
    intro lines h
    by_cases hle : bs ≤ lines.length
    · have hdrop : (lines.drop bs).length < n := by
        simp only [List.length_drop]; omega
      simp [chunksGo, hle, List.flatten, ih _ hdrop]
    · simp [chunksGo, hle, List.flatten]

theorem readerFuel_clean {bs : Nat} (hbs : 1 ≤ bs) (path : String) :
    ∀ (fuel : Nat) (lines : List String), lines.length < fuel →
      readerFuel fuel bs false path lines =
        ((chunksGo fuel bs lines).map ProcessingStatus.data ++
          [ProcessingStatus.completed], true) := by
  intro fuel
  induction fuel with
  | zero => intro lines h; omega
  | succ n ih =>
    intro lines h
    by_cases hle : bs ≤ lines.length
    · have hdrop : (lines.drop bs).length < n := by
        simp only [List.length_drop]; omega
      simp [readerFuel, chunksGo, hle, ih _ hdrop]
    · simp [readerFuel, chunksGo, hle]

/-- The batches sent by the reader loop before a mid-read I/O error: only the
full groups of `bs` lines (the partial batch is discarded). -/
def fullChunksGo : Nat → Nat → List String → List (List String)
  | 0, _, _ => []
  | fuel + 1, bs, lines =>
    if bs ≤ lines.length then
      lines.take bs :: fullChunksGo fuel bs (lines.drop bs)
    else
      []

theorem readerFuel_readErr {bs : Nat} (hbs : 1 ≤ bs) (path : String) :
    ∀ (fuel : Nat) (lines : List String), lines.length < fuel →
      readerFuel fuel bs true path lines =
        ((fullChunksGo fuel bs lines).map ProcessingStatus.data ++
          [ProcessingStatus.error (MtJsonlError.ioError readErrMsg path)], true) := by
  intro fuel
  induction fuel with
  | zero => intro lines h; omega
  | succ n ih =>
    intro lines h
    by_cases hle : bs ≤ lines.length
    · have hdrop : (lines.drop bs).length < n := by
        simp only [List.length_drop]; omega
      simp [readerFuel, fullChunksGo, hle, ih _ hdrop]
    · simp [readerFuel, fullChunksGo, hle]

theorem readerFuel_finishes {bs : Nat} (hbs : 1 ≤ bs) (re : Bool) (path : String) :
    ∀ (fuel : Nat) (lines : List String), lines.length < fuel →
      (readerFuel fuel bs re path lines).2 = true := by
  intro fuel
  induction fuel with
  | zero => intro lines h; omega
  | succ n ih =>
    intro lines h
    by_cases hle : bs ≤ lines.length
    · have hdrop : (lines.drop bs).length < n := by
        simp only [List.length_drop]; omega
      simp [readerFuel, hle, ih _ hdrop]
    · cases re <;> simp [readerFuel, hle]

/-- With `batchsize = 0` the `for` loop performs zero `read_line` calls, so
end-of-file is never observed: every `while` iteration sends one empty
`Data` batch and the loop never exits. -/
theorem readerFuel_batchsize_zero (re : Bool) (path : String) :
    ∀ (fuel : Nat) (lines : List String),
      readerFuel fuel 0 re path lines =
        (List.replicate fuel (ProcessingStatus.data []), false) := by
  intro fuel
  induction fuel with
  | zero => intro lines; rfl
  | succ n ih =>
    intro lines
    simp [readerFuel, List.replicate_succ, ih]

section Parser

variable {T : Type}

/-- Modelled from the spec: `serde_json::Deserializer::from_str(..).into_iter()`
is an external collaborator (the serde_json crate, not part of this
repository).  Following spec section 6 (`json_decode_stream`), it yields one
independently fallible decode result per JSON value discovered in the batch
text — one per line, since a batch is the concatenation of whole lines and
a JSONL file holds one value per line.  A batch is therefore embedded as the
list of its lines and the decoder as a per-line function `dec`; a failed
decode is wrapped in `MtJsonlError::ParsingError` exactly as in
src/fs.rs line 728. -/
def jsonDecodeStream (dec : String → Except String T) (batch : List String) :
    List (Except MtJsonlError T) :=
  batch.map fun l => (dec l).mapError MtJsonlError.parsingError

/-- Result of running the parser thread: the messages successfully sent on
the structs channel, the batches it consumed and decoded (in consumption
order), the `channel_successful_completed` flag, and the number of send
calls attempted. -/
structure ParserResult (T : Type) where
  sent : List (ProcessingStatus (List (Except MtJsonlError T)))
  parsed : List (List String)
  flag : Bool
  sends : Nat
  deriving Repr

/-- Embeds the parser thread's `lines_receiver.iter().for_each(..)` loop
(src/fs.rs lines 713-746).  `ok i` tells whether the `i`-th attempted send
on the structs channel succeeds (it fails once the receiving iterator has
been dropped).  Faithful to the code, a failed send does NOT stop the loop:
the `return` in the closure only ends the current iteration, so the fold
continues with the next received message either way.  `k` counts attempted
sends so far and `flag` is `channel_successful_completed`. -/
def parserGo (dec : String → Except String T) (ok : Nat → Bool) :
    List (ProcessingStatus (List String)) → Nat → Bool → ParserResult T
  | [], k, flag => ⟨[], [], flag, k⟩
  | ProcessingStatus.error e :: rest, k, flag =>
    -- pass the error through; the send result is ignored
    let r := parserGo dec ok rest (k + 1) flag
    ⟨(if ok k then [ProcessingStatus.error e] else []) ++ r.sent,
      r.parsed, r.flag, r.sends⟩
  | ProcessingStatus.completed :: rest, k, _ =>
    -- note the success status for future use; nothing is sent
    parserGo dec ok rest k true
  | ProcessingStatus.data b :: rest, k, flag =>
    -- decode the whole batch, then send the vector of results
    let r := parserGo dec ok rest (k + 1) flag
    ⟨(if ok k then [ProcessingStatus.data (jsonDecodeStream dec b)] else []) ++ r.sent,
      b :: r.parsed, r.flag, r.sends⟩

/-- Embeds the whole parser thread (src/fs.rs lines 707-766): after the input
channel is exhausted, exactly when `channel_successful_completed` is set one
final `Completed` send is attempted. -/
def parserRun (dec : String → Except String T) (ok : Nat → Bool)
    (input : List (ProcessingStatus (List String))) : ParserResult T :=
  let r := parserGo dec ok input 0 false
  ⟨r.sent ++ (if r.flag && ok r.sends then [ProcessingStatus.completed] else []),
    r.parsed, r.flag, r.sends + (if r.flag then 1 else 0)⟩

/-- The messages the parser sends when no send ever fails (the consumer keeps
its iterator until the channel is drained). -/
def parserTrace (dec : String → Except String T)
    (input : List (ProcessingStatus (List String))) :
    List (ProcessingStatus (List (Except MtJsonlError T))) :=
  (parserRun dec (fun _ => true) input).sent

theorem parserGo_data_completed (dec : String → Except String T)
    (ds : List (List String)) :
    ∀ (k : Nat) (flag : Bool),
      parserGo dec (fun _ => true)
          (ds.map ProcessingStatus.data ++ [ProcessingStatus.completed]) k flag =
        ⟨ds.map fun b => ProcessingStatus.data (jsonDecodeStream dec b),
          ds, true, k + ds.length⟩ := by
  induction ds with
  | nil => intro k flag; simp [parserGo]
  | cons b rest ih =>
    intro k flag
    simp [parserGo, ih]
    omega

theorem parserGo_data_error (dec : String → Except String T)
    (ds : List (List String)) (e : MtJsonlError) :
    ∀ (k : Nat) (flag : Bool),
      parserGo dec (fun _ => true)
          (ds.map ProcessingStatus.data ++ [ProcessingStatus.error e]) k flag =
        ⟨(ds.map fun b => ProcessingStatus.data (jsonDecodeStream dec b)) ++
            [ProcessingStatus.error e],
          ds, flag, k + ds.length + 1⟩ := by
  induction ds with
  | nil => intro k flag; simp [parserGo]
  | cons b rest ih =>
    intro k flag
    simp [parserGo, ih]
    omega

theorem parserTrace_data_completed (dec : String → Except String T)
    (ds : List (List String)) :
    parserTrace dec (ds.map ProcessingStatus.data ++ [ProcessingStatus.completed]) =
      (ds.map fun b => ProcessingStatus.data (jsonDecodeStream dec b)) ++
        [ProcessingStatus.completed] := by
  simp [parserTrace, parserRun, parserGo_data_completed]

theorem parserTrace_data_error (dec : String → Except String T)
    (ds : List (List String)) (e : MtJsonlError) :
    parserTrace dec (ds.map ProcessingStatus.data ++ [ProcessingStatus.error e]) =
      (ds.map fun b => ProcessingStatus.data (jsonDecodeStream dec b)) ++
        [ProcessingStatus.error e] := by
  simp [parserTrace, parserRun, parserGo_data_error]

/-- The `for_each` loop itself never sends `Completed`: that message is only
ever sent after the loop, making it the last message of the parser channel. -/
theorem parserGo_no_completed (dec : String → Except String T) (ok : Nat → Bool) :
    ∀ (input : List (ProcessingStatus (List String))) (k : Nat) (flag : Bool),
      ProcessingStatus.completed ∉ (parserGo dec ok input k flag).sent := by
  intro input
  induction input with
  | nil => intro k flag; simp [parserGo]
  | cons m rest ih =>
    intro k flag
    cases m with
    | completed => simpa [parserGo] using ih k true
    | data b =>
      by_cases h : ok k <;> simp [parserGo, h, ih]
    | error e =>
      by_cases h : ok k <;> simp [parserGo, h, ih]

/-- Every `Data` batch arriving at the parser is decoded and (when its send
succeeds) forwarded as the full list of per-value results. -/
theorem parserTrace_mem_data (dec : String → Except String T)
    {input : List (ProcessingStatus (List String))} {b : List String}
    (hb : ProcessingStatus.data b ∈ input) :
    ProcessingStatus.data (jsonDecodeStream dec b) ∈ parserTrace dec input := by
  suffices h : ∀ (k : Nat) (flag : Bool),
      ProcessingStatus.data (jsonDecodeStream dec b) ∈
        (parserGo dec (fun _ => true) input k flag).sent by
    simp [parserTrace, parserRun]
    exact h 0 false
  induction input with
  | nil => cases hb
  | cons m rest ih =>
    intro k flag
    rcases List.mem_cons.mp hb with hEq | hMem
    · subst hEq
      simp [parserGo]
    · cases m with
      | completed => simpa [parserGo] using ih hMem k true
      | data b' => simp [parserGo, ih hMem]
      | error e => simp [parserGo, ih hMem]

end Parser

section Iterator

variable {T : Type}

/-- Embeds the state of `MtJsonl<T>` (src/fs.rs lines 541-549): the
in-progress sub-batch iterator `tmp_state`, the receiving end of the structs
channel (as the list of messages still to be received before the channel is
found closed), and the `did_complete` flag. -/
structure MtState (T : Type) where
  tmpState : List (Except MtJsonlError T)
  iter : List (ProcessingStatus (List (Except MtJsonlError T)))
  did_complete : Bool
  deriving DecidableEq, Repr

/-- Channel-scanning part of `MtJsonl::next` (the `else if` branches of
src/fs.rs lines 586-601), entered when `tmp_state` is exhausted: `Data`
refills `tmp_state` (and the loop retries it), `Completed` sets
`did_complete` and loops, `Error` is returned to the caller at once; an
exhausted channel gives `None` when `did_complete` is set and
`Some(Err(NotCompleted))` otherwise — leaving the state unchanged, so there
is no terminal marker making later calls return `None`. -/
def mtNextChan : List (ProcessingStatus (List (Except MtJsonlError T))) → Bool →
    Option (Except MtJsonlError T) × MtState T
  | ProcessingStatus.data d :: m, dc =>
    match d with
    | x :: p => (some x, ⟨p, m, dc⟩)
    | [] => mtNextChan m dc
  | ProcessingStatus.completed :: m, _ => mtNextChan m true
  | ProcessingStatus.error e :: m, dc => (some (Except.error e), ⟨[], m, dc⟩)
  | [], true => (none, ⟨[], [], true⟩)
  | [], false => (some (Except.error MtJsonlError.notCompleted), ⟨[], [], false⟩)

/-- Embeds `MtJsonl::next` (src/fs.rs lines 576-603): one pull on the
iterator, returning the yielded item (or `none`) and the successor state. -/
def mtNext (st : MtState T) : Option (Except MtJsonlError T) × MtState T :=
  match st with
  | ⟨x :: p, m, dc⟩ => (some x, ⟨p, m, dc⟩)
  | ⟨[], m, dc⟩ => mtNextChan m dc

/-- The results of the first `n` pulls on the iterator. -/
def mtPulls : Nat → MtState T → List (Option (Except MtJsonlError T))
  | 0, _ => []
  | n + 1, st =>
    let r := mtNext st
    r.1 :: mtPulls n r.2

/-- Pull until `next` returns `None`, with fuel (the iteration does not
terminate when the stream ended without `Completed`, since `NotCompleted`
is then returned forever).  Returns the yielded items and the state in
which `None` was returned. -/
def mtCollectFuel : Nat → MtState T → Option (List (Except MtJsonlError T) × MtState T)
  | 0, _ => none
  | fuel + 1, st =>
    match mtNext st with
    | (none, st') => some ([], st')
    | (some x, st') =>
      (mtCollectFuel fuel st').map fun r => (x :: r.1, r.2)

theorem mtNext_data (d : List (Except MtJsonlError T))
    (m : List (ProcessingStatus (List (Except MtJsonlError T)))) (dc : Bool) :
    mtNext (⟨[], ProcessingStatus.data d :: m, dc⟩ : MtState T) =
      mtNext (⟨d, m, dc⟩ : MtState T) := by
  cases d <;> rfl

theorem mtNext_completed
    (m : List (ProcessingStatus (List (Except MtJsonlError T)))) (dc : Bool) :
    mtNext (⟨[], ProcessingStatus.completed :: m, dc⟩ : MtState T) =
      mtNext (⟨[], m, true⟩ : MtState T) := by
  rfl

theorem mtCollectFuel_congr {st1 st2 : MtState T} (h : mtNext st1 = mtNext st2) :
    ∀ fuel, mtCollectFuel fuel st1 = mtCollectFuel fuel st2 := by
  intro fuel
  cases fuel with
  | zero => rfl
  | succ n => simp [mtCollectFuel, h]

/-- Draining a pending sub-batch: each pending item costs one pull and is
yielded before anything from the channel. -/
theorem mtCollectFuel_drain
    (msgs : List (ProcessingStatus (List (Except MtJsonlError T)))) (dc : Bool)
    {f : Nat} {out : List (Except MtJsonlError T)} {st' : MtState T}
    (h : ∀ g, f ≤ g → mtCollectFuel g (⟨[], msgs, dc⟩ : MtState T) = some (out, st')) :
    ∀ (p : List (Except MtJsonlError T)) (g : Nat), f + p.length ≤ g →
      mtCollectFuel g (⟨p, msgs, dc⟩ : MtState T) = some (p ++ out, st') := by
  intro p
  induction p with
  | nil => intro g hg; simpa using h g (by simpa using hg)
  | cons x p ih =>
    intro g hg
    simp only [List.length_cons] at hg
    obtain ⟨g', rfl⟩ : ∃ g', g = g' + 1 := ⟨g - 1, by omega⟩
    have hx : mtNext (⟨x :: p, msgs, dc⟩ : MtState T) = (some x, ⟨p, msgs, dc⟩) := rfl
    simp only [mtCollectFuel, hx]
    rw [ih g' (by omega)]
    rfl

/-- The items the consumer obtains from one channel message. -/
def msgItems : ProcessingStatus (List (Except MtJsonlError T)) →
    List (Except MtJsonlError T)
  | ProcessingStatus.data d => d
  | ProcessingStatus.completed => []
  | ProcessingStatus.error e => [Except.error e]

/-- All items the consumer obtains from a list of channel messages. -/
def msgsItems (msgs : List (ProcessingStatus (List (Except MtJsonlError T)))) :
    List (Except MtJsonlError T) :=
  (msgs.map msgItems).flatten

/-- Main collection lemma: when the channel holds a `Completed` message (or
`did_complete` is already set), iterating to exhaustion terminates and
yields exactly the flattening of the `Data` batches with pass-through
errors interleaved in channel order, ending in the clean terminal state. -/
theorem mtCollectFuel_complete :
    ∀ (msgs : List (ProcessingStatus (List (Except MtJsonlError T)))) (dc : Bool),
      (dc = true ∨ ProcessingStatus.completed ∈ msgs) →
      ∀ g, (msgsItems msgs).length + 1 ≤ g →
        mtCollectFuel g (⟨[], msgs, dc⟩ : MtState T) =
          some (msgsItems msgs, ⟨[], [], true⟩) := by
  intro msgs
  induction msgs with
  | nil =>
    intro dc hdc g hg
    obtain rfl : dc = true := by tauto
    obtain ⟨g', rfl⟩ : ∃ g', g = g' + 1 := ⟨g - 1, by omega⟩
    simp [mtCollectFuel, mtNext, mtNextChan, msgsItems]
  | cons m rest ih =>
    intro dc hdc g hg
    cases m with
    | completed =>
      have h1 : mtCollectFuel g (⟨[], ProcessingStatus.completed :: rest, dc⟩ : MtState T) =
          mtCollectFuel g (⟨[], rest, true⟩ : MtState T) :=
        mtCollectFuel_congr (mtNext_completed rest dc) g
      rw [h1]
      have h2 := ih true (Or.inl rfl) g (by
        simpa [msgsItems, msgItems] using hg)
      rw [h2]
      simp [msgsItems, msgItems]
    | data d =>
      have h1 : mtCollectFuel g (⟨[], ProcessingStatus.data d :: rest, dc⟩ : MtState T) =
          mtCollectFuel g (⟨d, rest, dc⟩ : MtState T) :=
        mtCollectFuel_congr (mtNext_data d rest dc) g
      rw [h1]
      have hrest : dc = true ∨ ProcessingStatus.completed ∈ rest := by
        rcases hdc with h | h
        · exact Or.inl h
        · rcases List.mem_cons.mp h with h' | h'
          · cases h'
          · exact Or.inr h'
      have hlen : (msgsItems rest).length + 1 + d.length ≤ g := by
        have : (msgsItems (ProcessingStatus.data d :: rest)).length =
            d.length + (msgsItems rest).length := by
          simp [msgsItems, msgItems]
        omega
      have := mtCollectFuel_drain rest dc
        (fun g' hg' => ih dc hrest g' hg') d g hlen
      rw [this]
      simp [msgsItems, msgItems]
    | error e =>
      obtain ⟨g', rfl⟩ : ∃ g', g = g' + 1 := ⟨g - 1, by omega⟩
      have h1 : mtNext (⟨[], ProcessingStatus.error e :: rest, dc⟩ : MtState T) =
          (some (Except.error e), ⟨[], rest, dc⟩) := rfl
      simp only [mtCollectFuel, h1]
      have hrest : dc = true ∨ ProcessingStatus.completed ∈ rest := by
        rcases hdc with h | h
        · exact Or.inl h
        · rcases List.mem_cons.mp h with h' | h'
          · cases h'
          · exact Or.inr h'
      have hlen : (msgsItems rest).length + 1 ≤ g' := by
        have : (msgsItems (ProcessingStatus.error e :: rest)).length =
            1 + (msgsItems rest).length := by
          simp [msgsItems, msgItems]
          omega
        omega
      rw [ih dc hrest g' hlen]
      simp [msgsItems, msgItems]

/-- In the stuck state — channel exhausted, no pending items, `did_complete`
false — every pull returns `Err(NotCompleted)` and the state is unchanged,
so the error repeats on every subsequent pull and `None` is never reached. -/
theorem mtPulls_stuck :
    ∀ (n : Nat), mtPulls n (⟨[], [], false⟩ : MtState T) =
      List.replicate n (some (Except.error MtJsonlError.notCompleted)) := by
  intro n
  induction n with
  | zero => rfl
  | succ k ih =>
    simp [mtPulls, mtNext, mtNextChan, List.replicate_succ, ih]

end Iterator

section Pipeline

variable {T : Type}

/-- Reader fuel that suffices for any `batchsize ≥ 1`: each loop iteration
except the last consumes at least one line. -/
def readerFuelFor (f : FileModel) : Nat := f.lines.length + 1

/-- The messages the consumer's channel carries for one pipeline invocation
`parse_jsonl_multi_threaded(path, batchsize)` in which neither receiver is
dropped early: the reader's messages fed through the parser stage. -/
def pipelineMsgs (dec : String → Except String T) (bs : Nat) (f : FileModel) :
    List (ProcessingStatus (List (Except MtJsonlError T))) :=
  parserTrace dec (readerRun (readerFuelFor f) bs f).1

/-- Iterator fuel sufficient to reach the first `None`: one pull per item
plus the final empty pull. -/
def fuelFor (msgs : List (ProcessingStatus (List (Except MtJsonlError T)))) : Nat :=
  (msgsItems msgs).length + 1

/-- Iterating the returned `MtJsonl` iterator to its first `None`: the items
yielded and the iterator state in which `None` was returned (`none` when the
iteration would never return `None`). -/
def pipelineItems (dec : String → Except String T) (bs : Nat) (f : FileModel) :
    Option (List (Except MtJsonlError T) × MtState T) :=
  mtCollectFuel (fuelFor (pipelineMsgs dec bs f))
    (⟨[], pipelineMsgs dec bs f, false⟩ : MtState T)

/-- Written from the spec's words (section 8, order preservation): the result
of sequentially reading the file's lines and decoding each line in file
order, one result per line. -/
def sequentialParse (dec : String → Except String T) (lines : List String) :
    List (Except MtJsonlError T) :=
  lines.map fun l => (dec l).mapError MtJsonlError.parsingError

theorem jsonDecodeStream_flatten (dec : String → Except String T)
    (chunks : List (List String)) :
    (chunks.map (jsonDecodeStream dec)).flatten =
      sequentialParse dec chunks.flatten :=
  (List.map_flatten _ _).symm

theorem pipelineMsgs_clean (dec : String → Except String T) {bs : Nat}
    (hbs : 1 ≤ bs) (f : FileModel) (hopen : f.openErr = false)
    (hread : f.readErr = false) :
    pipelineMsgs dec bs f =
      ((chunksGo (readerFuelFor f) bs f.lines).map fun b =>
          ProcessingStatus.data (jsonDecodeStream dec b)) ++
        [ProcessingStatus.completed] := by
  have hrt := readerFuel_clean hbs f.path (readerFuelFor f) f.lines
    (by simp [readerFuelFor])
  simp only [pipelineMsgs, readerRun, hopen, hread, Bool.false_eq_true, if_false, hrt]
  exact parserTrace_data_completed dec _

theorem msgsItems_data_completed (dec : String → Except String T)
    (chunks : List (List String)) :
    msgsItems ((chunks.map fun b => ProcessingStatus.data (jsonDecodeStream dec b)) ++
        [ProcessingStatus.completed]) =
      sequentialParse dec chunks.flatten := by
  rw [← jsonDecodeStream_flatten]
  simp only [msgsItems, List.map_append, List.map_map]
  show ((chunks.map (jsonDecodeStream dec)) ++ [[]]).flatten = _
  simp

/-- Master lemma: on a file that opens and reads cleanly, with any
`batchsize ≥ 1`, iterating the pipeline to exhaustion terminates and yields
exactly the sequential line-by-line decode of the file, in file order,
ending with `did_complete = true`. -/
theorem pipelineItems_clean (dec : String → Except String T) {bs : Nat}
    (hbs : 1 ≤ bs) (f : FileModel) (hopen : f.openErr = false)
    (hread : f.readErr = false) :
    pipelineItems dec bs f =
      some (sequentialParse dec f.lines, (⟨[], [], true⟩ : MtState T)) := by
  have hmsgs := pipelineMsgs_clean dec hbs f hopen hread
  have hflat : (chunksGo (readerFuelFor f) bs f.lines).flatten = f.lines :=
    chunksGo_flatten hbs (readerFuelFor f) f.lines (by simp [readerFuelFor])
  have hitems : msgsItems (pipelineMsgs dec bs f) = sequentialParse dec f.lines := by
    rw [hmsgs, msgsItems_data_completed, hflat]
  have hmem : ProcessingStatus.completed ∈ pipelineMsgs dec bs f := by
    rw [hmsgs]; exact List.mem_append_right _ (List.mem_singleton.mpr rfl)
  have := mtCollectFuel_complete (pipelineMsgs dec bs f) false (Or.inr hmem)
    (fuelFor (pipelineMsgs dec bs f)) (by simp [fuelFor])
  rw [pipelineItems, this, hitems]

end Pipeline

section ChannelInvariant

variable {α T : Type}

/-- Recognizes the `Completed` sentinel. -/
def isCompleted : ProcessingStatus α → Bool
  | ProcessingStatus.completed => true
  | _ => false

/-- The channel protocol invariant: at most one `Completed` is ever sent on a
channel, and when one is sent it is the last message of the channel. -/
def chanOk (t : List (ProcessingStatus α)) : Prop :=
  (t.filter isCompleted).length ≤ 1 ∧ ProcessingStatus.completed ∉ t.dropLast

theorem isCompleted_eq_true {x : ProcessingStatus α} :
    isCompleted x = true ↔ x = ProcessingStatus.completed := by
  cases x <;> simp [isCompleted]

/-- A message list made of non-`Completed` messages followed by at most one
extra message satisfies the channel invariant, as do all its prefixes (the
prefixes are what a channel carries when its receiver is dropped early). -/
theorem chanOk_shape (u tail : List (ProcessingStatus α))
    (hu : ProcessingStatus.completed ∉ u) (htail : tail.length ≤ 1) (n : Nat) :
    chanOk ((u ++ tail).take n) := by
  rw [List.take_append_eq_append_take]
  have hu' : ∀ m, m ∈ u.take n → isCompleted m = false := by
    intro m hm
    have : m ∈ u := List.take_subset n u hm
    cases m with
    | completed => exact absurd this hu
    | data d => rfl
    | error e => rfl
  have hfilter : (u.take n).filter isCompleted = [] := by
    rw [List.filter_eq_nil_iff]
    intro a ha
    simp [hu' a ha]
  have htail' : tail.take (n - u.length) = [] ∨
      ∃ x, tail.take (n - u.length) = [x] := by
    have hlen : (tail.take (n - u.length)).length ≤ 1 := by
      rw [List.length_take]; omega
    match htt : tail.take (n - u.length) with
    | [] => exact Or.inl rfl
    | [x] => exact Or.inr ⟨x, rfl⟩
    | x :: y :: rest => rw [htt] at hlen; simp at hlen
  constructor
  · rw [List.filter_append, hfilter, List.nil_append]
    have h1 : ((tail.take (n - u.length)).filter isCompleted).length ≤
        (tail.take (n - u.length)).length := List.length_filter_le _ _
    have h2 : (tail.take (n - u.length)).length ≤ 1 := by
      rw [List.length_take]; omega
    omega
  · rcases htail' with h0 | ⟨x, h1⟩
    · rw [h0, List.append_nil]
      intro hmem
      exact hu (List.take_subset n u ((List.dropLast_sublist (u.take n)).subset hmem))
    · rw [h1]
      have : (u.take n ++ [x]).dropLast = u.take n := by
        simp
      rw [this]
      intro hmem
      exact hu (List.take_subset n u hmem)

/-- Every reader-channel content is of the invariant-friendly shape: some
`Data` messages followed by at most one terminal message. -/
theorem readerFuel_shape :
    ∀ (fuel bs : Nat) (re : Bool) (path : String) (lines : List String),
      ∃ (ds : List (List String)) (tail : List (ProcessingStatus (List String))),
        (readerFuel fuel bs re path lines).1 = ds.map ProcessingStatus.data ++ tail ∧
          tail.length ≤ 1 := by
  intro fuel
  induction fuel with
  | zero => intro bs re path lines; exact ⟨[], [], rfl, by simp⟩
  | succ n ih =>
    intro bs re path lines
    by_cases hle : bs ≤ lines.length
    · obtain ⟨ds, tail, heq, hlen⟩ := ih bs re path (lines.drop bs)
      refine ⟨lines.take bs :: ds, tail, ?_, hlen⟩
      simp [readerFuel, hle, heq]
    · cases re with
      | true => exact ⟨[], [ProcessingStatus.error (MtJsonlError.ioError readErrMsg path)],
          by simp [readerFuel, hle], by simp⟩
      | false => exact ⟨[lines], [ProcessingStatus.completed],
          by simp [readerFuel, hle], by simp⟩

theorem readerRun_chanOk (fuel bs : Nat) (f : FileModel) (n : Nat) :
    chanOk (((readerRun fuel bs f).1).take n) := by
  by_cases hopen : f.openErr
  · have : (readerRun fuel bs f).1 =
        ([] : List (ProcessingStatus (List String))) ++
          [ProcessingStatus.error (MtJsonlError.ioError openErrMsg f.path)] := by
      simp [readerRun, hopen]
    rw [this]
    exact chanOk_shape _ _ (by simp) (by simp) n
  · obtain ⟨ds, tail, heq, hlen⟩ := readerFuel_shape fuel bs f.readErr f.path f.lines
    have : (readerRun fuel bs f).1 = ds.map ProcessingStatus.data ++ tail := by
      simp [readerRun, hopen, heq]
    rw [this]
    refine chanOk_shape _ _ ?_ hlen n
    simp

theorem parserRun_chanOk (dec : String → Except String T) (ok : Nat → Bool)
    (input : List (ProcessingStatus (List String))) :
    chanOk ((parserRun dec ok input).sent) := by
  have hno := parserGo_no_completed dec ok input 0 false
  have hshape : (parserRun dec ok input).sent =
      (parserGo dec ok input 0 false).sent ++
        (if (parserGo dec ok input 0 false).flag &&
            ok (parserGo dec ok input 0 false).sends
          then [ProcessingStatus.completed] else []) := rfl
  rw [hshape]
  by_cases hc : (parserGo dec ok input 0 false).flag &&
      ok (parserGo dec ok input 0 false).sends
  · rw [if_pos hc]
    have := chanOk_shape (parserGo dec ok input 0 false).sent
      [ProcessingStatus.completed] hno (by simp)
      ((parserGo dec ok input 0 false).sent.length + 1)
    simpa [List.take_of_length_le] using this
  · rw [if_neg hc, List.append_nil]
    have := chanOk_shape (parserGo dec ok input 0 false).sent [] hno (by simp)
      (parserGo dec ok input 0 false).sent.length
    simpa [List.take_of_length_le] using this

end ChannelInvariant

section ChunkStructure

theorem chunksGo_ne_nil (bs : Nat) (lines : List String) {fuel : Nat}
    (h : 0 < fuel) : chunksGo fuel bs lines ≠ [] := by
  obtain ⟨n, rfl⟩ : ∃ n, fuel = n + 1 := ⟨fuel - 1, by omega⟩
  by_cases hle : bs ≤ lines.length <;> simp [chunksGo, hle]

/-- Every batch produced by the reader loop on a cleanly read file, except
the final one, holds exactly `bs` lines. -/
theorem chunksGo_dropLast_length {bs : Nat} (hbs : 1 ≤ bs) :
    ∀ (fuel : Nat) (lines : List String), lines.length < fuel →
      ∀ c ∈ (chunksGo fuel bs lines).dropLast, c.length = bs := by
  intro fuel
  induction fuel with
  | zero => intro lines h; omega
  | succ n ih =>
    intro lines h c hc
    by_cases hle : bs ≤ lines.length
    · have hdrop : (lines.drop bs).length < n := by
        simp only [List.length_drop]; omega
      rw [chunksGo, if_pos hle] at hc
      rw [List.dropLast_cons_of_ne_nil (chunksGo_ne_nil bs (lines.drop bs) (by omega))]
        at hc
      rcases List.mem_cons.mp hc with h1 | h1
      · subst h1
        rw [List.length_take]
        omega
      · exact ih (lines.drop bs) hdrop c h1
    · rw [chunksGo, if_neg hle] at hc
      simp at hc

theorem chunksGo_nil_mem {bs : Nat} (hbs : 1 ≤ bs) :
    ∀ (fuel : Nat) (lines : List String), lines.length < fuel →
      (([] : List String) ∈ chunksGo fuel bs lines ↔ lines.length % bs = 0) := by
  intro fuel
  induction fuel with
  | zero => intro lines h; omega
  | succ n ih =>
    intro lines h
    by_cases hle : bs ≤ lines.length
    · have hdrop : (lines.drop bs).length < n := by
        simp only [List.length_drop]; omega
      rw [chunksGo, if_pos hle]
      have htake : lines.take bs ≠ [] := by
        have hlen : (lines.take bs).length = bs := by
          rw [List.length_take]; omega
        intro hnil
        rw [hnil] at hlen
        simp at hlen
        omega
      rw [List.mem_cons]
      have hmod : (lines.drop bs).length % bs = lines.length % bs := by
        rw [List.length_drop]
        conv_rhs => rw [Nat.mod_eq_sub_mod hle]
      constructor
      · rintro (h1 | h1)
        · exact absurd h1.symm htake
        · rw [← hmod]; exact (ih (lines.drop bs) hdrop).mp h1
      · intro h1
        exact Or.inr ((ih (lines.drop bs) hdrop).mpr (by rw [hmod]; exact h1))
    · rw [chunksGo, if_neg hle]
      push_neg at hle
      rw [Nat.mod_eq_of_lt hle]
      simp [eq_comm, List.length_eq_zero]

end ChunkStructure

section Claims

/-- A concrete per-line decoder used to instantiate the claims on concrete
inputs: decodes a line to its length, failing on the line "bad". -/
def decLen : String → Except String Nat :=
  fun s => if s = "bad" then Except.error s else Except.ok s.length

/-- C1, as stated, is false on the code: after the first `Err(NotCompleted)`
the iterator does not return `None`.  Concrete run: a pipeline whose file
errors on the first read yields `Err(IoError)`, then `Err(NotCompleted)` on
the second pull, and the third pull yields `Err(NotCompleted)` again rather
than the claimed `None`. -/
theorem c1_counterexample :
    mtPulls 3 (⟨[], pipelineMsgs decLen 1
        (⟨false, true, "file.jsonl", []⟩ : FileModel), false⟩ : MtState Nat) =
      [some (Except.error (MtJsonlError.ioError readErrMsg "file.jsonl")),
        some (Except.error MtJsonlError.notCompleted),
        some (Except.error MtJsonlError.notCompleted)] ∧
    some (Except.error MtJsonlError.notCompleted) ≠
      (none : Option (Except MtJsonlError Nat)) := by
  exact ⟨rfl, by decide⟩

/-- C1 (amended): once the result channel is exhausted without `Completed`
having been observed, `MtJsonl::next` returns `Err(NotCompleted)` on every
pull — not just once — and never returns `None`: the state is left
unchanged, so no terminal state is ever reached. -/
theorem c1_notCompleted_repeats (T : Type) (n : Nat) :
    mtPulls n (⟨[], [], false⟩ : MtState T) =
      List.replicate n (some (Except.error MtJsonlError.notCompleted)) ∧
    mtNext (⟨[], [], false⟩ : MtState T) =
      (some (Except.error MtJsonlError.notCompleted), ⟨[], [], false⟩) :=
  ⟨mtPulls_stuck n, rfl⟩

/-- C2: a decode failure inside a batch is local to that one value: the
parser still produces one result per discovered value of the batch, the
values after the failing one included, and every other batch of the input
is still decoded and forwarded. -/
theorem c2_parsing_error_is_local {T : Type} (dec : String → Except String T)
    (input : List (ProcessingStatus (List String))) (b : List String)
    (hb : ProcessingStatus.data b ∈ input)
    (i j : Nat) (hi : i < b.length) (hj : j < b.length) (hij : i < j)
    (herr : (dec (b.get ⟨i, hi⟩)).isOk = false) :
    ProcessingStatus.data (jsonDecodeStream dec b) ∈ parserTrace dec input ∧
    (jsonDecodeStream dec b).length = b.length ∧
    (jsonDecodeStream dec b).get ⟨j, by simpa [jsonDecodeStream] using hj⟩ =
      (dec (b.get ⟨j, hj⟩)).mapError MtJsonlError.parsingError ∧
    ∀ b', ProcessingStatus.data b' ∈ input →
      ProcessingStatus.data (jsonDecodeStream dec b') ∈ parserTrace dec input := by
  refine ⟨parserTrace_mem_data dec hb, by simp [jsonDecodeStream], ?_,
    fun b' hb' => parserTrace_mem_data dec hb'⟩
  simp [jsonDecodeStream]

/-- Witness for C2 at a concrete batch `["aa", "bad", "cccc"]` whose middle
value fails to decode: the whole batch is forwarded and the value after the
failure decodes normally. -/
theorem c2_witness :
    (decLen "bad").isOk = false ∧
    ProcessingStatus.data (jsonDecodeStream decLen ["aa", "bad", "cccc"]) ∈
      parserTrace decLen [ProcessingStatus.data ["aa", "bad", "cccc"]] ∧
    (jsonDecodeStream decLen ["aa", "bad", "cccc"]).get ⟨2, by decide⟩ =
      (decLen "cccc").mapError MtJsonlError.parsingError := by
  have h := c2_parsing_error_is_local decLen
    [ProcessingStatus.data ["aa", "bad", "cccc"]] ["aa", "bad", "cccc"]
    (by decide) 1 2 (by decide) (by decide) (by decide) (by decide)
  exact ⟨by decide, h.1, h.2.2.1⟩

/-- C3, as stated, is false on the code: after the single `Err(IoError)` of
a missing file, the next pull yields `Err(NotCompleted)`, not `None`. -/
theorem c3_counterexample :
    mtPulls 2 (⟨[], pipelineMsgs decLen 10
        (⟨true, false, "/does/not/exist", []⟩ : FileModel), false⟩ : MtState Nat) =
      [some (Except.error (MtJsonlError.ioError openErrMsg "/does/not/exist")),
        some (Except.error MtJsonlError.notCompleted)] ∧
    some (Except.error MtJsonlError.notCompleted) ≠
      (none : Option (Except MtJsonlError Nat)) := by
  exact ⟨rfl, by decide⟩

/-- C3 (amended): for every path whose open fails, the iterator yields
exactly one `Err(IoError)` as its first item, and every later pull yields
`Err(NotCompleted)` — it never reaches `None`. -/
theorem c3_missing_file (T : Type) (dec : String → Except String T)
    (bs n : Nat) (f : FileModel) (hopen : f.openErr = true) :
    mtPulls (n + 2) (⟨[], pipelineMsgs dec bs f, false⟩ : MtState T) =
      some (Except.error (MtJsonlError.ioError openErrMsg f.path)) ::
        List.replicate (n + 1) (some (Except.error MtJsonlError.notCompleted)) := by
  have hmsgs : pipelineMsgs dec bs f =
      [ProcessingStatus.error (MtJsonlError.ioError openErrMsg f.path)] := by
    have h0 : (readerRun (readerFuelFor f) bs f).1 =
        [ProcessingStatus.error (MtJsonlError.ioError openErrMsg f.path)] := by
      simp [readerRun, hopen]
    rw [pipelineMsgs, h0]
    simpa using parserTrace_data_error dec []
      (MtJsonlError.ioError openErrMsg f.path)
  rw [hmsgs]
  have h1 : mtNext (⟨[],
      [ProcessingStatus.error (MtJsonlError.ioError openErrMsg f.path)],
      false⟩ : MtState T) =
    (some (Except.error (MtJsonlError.ioError openErrMsg f.path)),
      ⟨[], [], false⟩) := rfl
  show (mtNext _).1 :: mtPulls (n + 1) (mtNext _).2 = _
  rw [h1]
  rw [mtPulls_stuck (n + 1)]

/-- Witness for C3 (amended) on the concrete missing file `/missing`. -/
theorem c3_witness :
    mtPulls 3 (⟨[], pipelineMsgs decLen 7
        (⟨true, false, "/missing", []⟩ : FileModel), false⟩ : MtState Nat) =
      some (Except.error (MtJsonlError.ioError openErrMsg "/missing")) ::
        List.replicate 2 (some (Except.error MtJsonlError.notCompleted)) :=
  c3_missing_file Nat decLen 7 1 (⟨true, false, "/missing", []⟩ : FileModel) rfl

/-- C4, as stated, is false on the code: the reader sends the accumulated
batch unconditionally when end-of-file is hit, so a zero-byte file sends
`Data("")` and a file whose line count is a multiple of the batch size
sends a final empty `Data` batch before `Completed`. -/
theorem c4_counterexample :
    (readerFuel 1 1 false "empty.jsonl" []).1 =
      [ProcessingStatus.data [], ProcessingStatus.completed] ∧
    ProcessingStatus.data [] ∈ (readerFuel 2 1 false "one.jsonl" ["line1"]).1 := by
  exact ⟨rfl, by decide⟩

/-- C4 (amended): for `batchsize ≥ 1` and a cleanly-read file, every `Data`
batch sent by the reader except the final one holds exactly `batchsize`
lines (hence is non-empty); an empty batch is sent — once, as the final
`Data` message before `Completed` — exactly when `batchsize` divides the
number of lines, which includes the zero-byte file. -/
theorem c4_nonempty_batches {bs : Nat} (path : String) (lines : List String)
    (hbs : 1 ≤ bs) :
    (readerFuel (lines.length + 1) bs false path lines).1 =
      (chunksGo (lines.length + 1) bs lines).map ProcessingStatus.data ++
        [ProcessingStatus.completed] ∧
    (∀ c ∈ (chunksGo (lines.length + 1) bs lines).dropLast, c.length = bs) ∧
    (([] : List String) ∈ chunksGo (lines.length + 1) bs lines ↔
      lines.length % bs = 0) := by
  refine ⟨?_, chunksGo_dropLast_length hbs _ _ (by omega),
    chunksGo_nil_mem hbs _ _ (by omega)⟩
  rw [readerFuel_clean hbs path (lines.length + 1) lines (by omega)]

/-- Witness for C4 (amended) on a four-line file with batch size two. -/
theorem c4_witness :
    (readerFuel 5 2 false "w.jsonl" ["a", "b", "c", "d"]).1 =
      (chunksGo 5 2 ["a", "b", "c", "d"]).map ProcessingStatus.data ++
        [ProcessingStatus.completed] ∧
    (∀ c ∈ (chunksGo 5 2 ["a", "b", "c", "d"]).dropLast, c.length = 2) ∧
    (([] : List String) ∈ chunksGo 5 2 ["a", "b", "c", "d"] ↔ 4 % 2 = 0) :=
  c4_nonempty_batches "w.jsonl" ["a", "b", "c", "d"] (by decide)

/-- C5: the code does not do what the claim (and the code's own
"kill on send error" comment) say.  With the receiver already dropped, every
send fails, yet the parser still consumes and decodes the second batch after
the failed send of the first: the `return` in the `for_each` closure only
skips the rest of that one iteration. -/
theorem c5_parser_continues_after_send_failure :
    (parserRun decLen (fun _ => false)
        [ProcessingStatus.data ["1"], ProcessingStatus.data ["2"]]).sent = [] ∧
    (parserRun decLen (fun _ => false)
        [ProcessingStatus.data ["1"], ProcessingStatus.data ["2"]]).parsed =
      [["1"], ["2"]] :=
  ⟨rfl, rfl⟩

/-- C6: on each channel, at most one `Completed` is sent and it is the last
message (stated for every prefix of the reader trace — a dropped receiver
truncates the sent sequence to a prefix — and for the parser under an
arbitrary send-success oracle); a channel misses `Completed` only when an
error preempted it (the trace then ends in `Error`) or the receiver was
dropped. -/
theorem c6_completed_unique_and_last {T : Type} (dec : String → Except String T)
    (bs : Nat) (f : FileModel) (hbs : 1 ≤ bs) :
    (∀ n, chanOk (((readerRun (readerFuelFor f) bs f).1).take n)) ∧
    (∀ (ok : Nat → Bool) (input : List (ProcessingStatus (List String))),
      chanOk ((parserRun dec ok input).sent)) ∧
    (ProcessingStatus.completed ∉ (readerRun (readerFuelFor f) bs f).1 →
      ∃ e, ((readerRun (readerFuelFor f) bs f).1).getLast? =
        some (ProcessingStatus.error e)) ∧
    (ProcessingStatus.completed ∉ parserTrace dec (readerRun (readerFuelFor f) bs f).1 →
      ∃ e, (parserTrace dec (readerRun (readerFuelFor f) bs f).1).getLast? =
        some (ProcessingStatus.error e)) := by
  refine ⟨readerRun_chanOk (readerFuelFor f) bs f,
    fun ok input => parserRun_chanOk dec ok input, ?_, ?_⟩
  · intro hno
    by_cases hopen : f.openErr
    · refine ⟨MtJsonlError.ioError openErrMsg f.path, ?_⟩
      simp [readerRun, hopen]
    · cases hread : f.readErr with
      | true =>
        have := readerFuel_readErr hbs f.path (readerFuelFor f) f.lines
          (by simp [readerFuelFor])
        refine ⟨MtJsonlError.ioError readErrMsg f.path, ?_⟩
        simp [readerRun, hopen, hread, this]
      | false =>
        exfalso
        apply hno
        have := readerFuel_clean hbs f.path (readerFuelFor f) f.lines
          (by simp [readerFuelFor])
        simp [readerRun, hopen, hread, this]
  · intro hno
    by_cases hopen : f.openErr
    · have h0 : (readerRun (readerFuelFor f) bs f).1 =
          [ProcessingStatus.error (MtJsonlError.ioError openErrMsg f.path)] := by
        simp [readerRun, hopen]
      refine ⟨MtJsonlError.ioError openErrMsg f.path, ?_⟩
      rw [h0]
      have := parserTrace_data_error dec ([] : List (List String))
        (MtJsonlError.ioError openErrMsg f.path)
      simp at this
      rw [this]
      rfl
    · cases hread : f.readErr with
      | true =>
        have hrf := readerFuel_readErr hbs f.path (readerFuelFor f) f.lines
          (by simp [readerFuelFor])
        have h0 : (readerRun (readerFuelFor f) bs f).1 =
            (fullChunksGo (readerFuelFor f) bs f.lines).map ProcessingStatus.data ++
              [ProcessingStatus.error (MtJsonlError.ioError readErrMsg f.path)] := by
          simp [readerRun, hopen, hread, hrf]
        refine ⟨MtJsonlError.ioError readErrMsg f.path, ?_⟩
        rw [h0, parserTrace_data_error]
        exact List.getLast?_concat _
      | false =>
        exfalso
        apply hno
        have hrf := readerFuel_clean hbs f.path (readerFuelFor f) f.lines
          (by simp [readerFuelFor])
        have h0 : (readerRun (readerFuelFor f) bs f).1 =
            (chunksGo (readerFuelFor f) bs f.lines).map ProcessingStatus.data ++
              [ProcessingStatus.completed] := by
          simp [readerRun, hopen, hread, hrf]
        rw [h0, parserTrace_data_completed]
        exact List.mem_append_right _ (List.mem_singleton.mpr rfl)

/-- Witness for C6 on a concrete one-line file and a concrete parser input
with every send failing. -/
theorem c6_witness :
    chanOk (((readerRun (readerFuelFor
        (⟨false, false, "w.jsonl", ["x"]⟩ : FileModel)) 1
        (⟨false, false, "w.jsonl", ["x"]⟩ : FileModel)).1).take 2) ∧
    chanOk ((parserRun decLen (fun _ => false)
        [ProcessingStatus.data ["x"], ProcessingStatus.completed]).sent) := by
  have h := c6_completed_unique_and_last decLen 1
    (⟨false, false, "w.jsonl", ["x"]⟩ : FileModel) (by decide)
  exact ⟨h.1 2, h.2.1 (fun _ => false)
    [ProcessingStatus.data ["x"], ProcessingStatus.completed]⟩

/-- C7: for every cleanly-read valid JSONL file (each line decodes
successfully) and every `batchsize ≥ 1`, iterating the pipeline to
exhaustion yields exactly the sequence obtained by sequentially reading and
decoding the file's lines in file order, and ends in the completed state. -/
theorem c7_order_preservation {T : Type} (dec : String → Except String T)
    {bs : Nat} (f : FileModel) (hbs : 1 ≤ bs) (hopen : f.openErr = false)
    (hread : f.readErr = false)
    (hvalid : ∀ l ∈ f.lines, (dec l).isOk = true) :
    pipelineItems dec bs f =
      some (sequentialParse dec f.lines, (⟨[], [], true⟩ : MtState T)) :=
  pipelineItems_clean dec hbs f hopen hread

/-- Witness for C7 on a concrete three-line file with batch size two. -/
theorem c7_witness :
    pipelineItems decLen 2 (⟨false, false, "w.jsonl", ["aa", "bbb", "c"]⟩ : FileModel) =
      some (sequentialParse decLen ["aa", "bbb", "c"], (⟨[], [], true⟩ : MtState Nat)) :=
  c7_order_preservation decLen (⟨false, false, "w.jsonl", ["aa", "bbb", "c"]⟩ : FileModel)
    (by decide) rfl rfl (by decide)

/-- C8, as stated (for every fixed input file), is false on the code: on a
file whose read fails after one line, batch size 1 yields the decoded first
line before the `IoError`, while batch size 2 discards the partially
accumulated batch and yields the `IoError` first. -/
theorem c8_counterexample :
    mtPulls 1 (⟨[], pipelineMsgs decLen 1
        (⟨false, true, "t.jsonl", ["x"]⟩ : FileModel), false⟩ : MtState Nat) ≠
    mtPulls 1 (⟨[], pipelineMsgs decLen 2
        (⟨false, true, "t.jsonl", ["x"]⟩ : FileModel), false⟩ : MtState Nat) := by
  decide

/-- C8 (amended): for every file whose open and reads succeed, the yielded
sequence is independent of the batch size (for all batch sizes ≥ 1); when a
mid-read I/O error occurs the number of items yielded before the `IoError`
does depend on the batch size, because the partially accumulated batch is
discarded. -/
theorem c8_batchsize_transparent {T : Type} (dec : String → Except String T)
    (f : FileModel) {bs1 bs2 : Nat} (h1 : 1 ≤ bs1) (h2 : 1 ≤ bs2)
    (hopen : f.openErr = false) (hread : f.readErr = false) :
    pipelineItems dec bs1 f = pipelineItems dec bs2 f := by
  rw [pipelineItems_clean dec h1 f hopen hread,
    pipelineItems_clean dec h2 f hopen hread]

/-- Witness for C8 (amended) at batch sizes 1 and 5 on a two-line file. -/
theorem c8_witness :
    pipelineItems decLen 1 (⟨false, false, "w.jsonl", ["a", "bb"]⟩ : FileModel) =
      pipelineItems decLen 5 (⟨false, false, "w.jsonl", ["a", "bb"]⟩ : FileModel) :=
  c8_batchsize_transparent decLen (⟨false, false, "w.jsonl", ["a", "bb"]⟩ : FileModel)
    (by decide) (by decide) rfl rfl

/-- C9: a zero-byte file yields no items: the first pull returns `None`,
the run ends with `did_complete = true`, and no `NotCompleted` (nor any
other item) is ever emitted. -/
theorem c9_empty_file {T : Type} (dec : String → Except String T)
    (path : String) {bs : Nat} (hbs : 1 ≤ bs) :
    pipelineItems dec bs (⟨false, false, path, []⟩ : FileModel) =
      some ([], (⟨[], [], true⟩ : MtState T)) ∧
    (mtNext (⟨[], pipelineMsgs dec bs (⟨false, false, path, []⟩ : FileModel),
      false⟩ : MtState T)).1 = none := by
  constructor
  · simpa [sequentialParse] using
      pipelineItems_clean dec hbs (⟨false, false, path, []⟩ : FileModel) rfl rfl
  · have hmsgs := pipelineMsgs_clean dec hbs
      (⟨false, false, path, []⟩ : FileModel) rfl rfl
    have hch : chunksGo (readerFuelFor (⟨false, false, path, []⟩ : FileModel)) bs
        ([] : List String) = [[]] := by
      have h0 : ¬ bs ≤ ([] : List String).length := by
        simp only [List.length_nil]; omega
      simp [readerFuelFor, chunksGo, h0]
    rw [hmsgs]
    rw [hch]
    rfl

/-- Witness for C9 at batch size 1024. -/
theorem c9_witness :
    pipelineItems decLen 1024 (⟨false, false, "empty.xz", []⟩ : FileModel) =
      some ([], (⟨[], [], true⟩ : MtState Nat)) ∧
    (mtNext (⟨[], pipelineMsgs decLen 1024
      (⟨false, false, "empty.xz", []⟩ : FileModel), false⟩ : MtState Nat)).1 = none :=
  c9_empty_file decLen "empty.xz" (by decide)

/-- C10: with `batchsize = 0` the reader's inner `for` loop reads zero lines
per iteration, so end-of-file is never detected: every iteration sends one
empty `Data` batch, for any amount of fuel the loop is still running
(flag `false`), so the pipeline never completes and iteration never
terminates; with any `batchsize ≥ 1` the loop terminates. -/
theorem c10_batchsize_zero_diverges (re : Bool) (path : String)
    (lines : List String) :
    (∀ fuel, readerFuel fuel 0 re path lines =
      (List.replicate fuel (ProcessingStatus.data []), false)) ∧
    (∀ bs, 1 ≤ bs → (readerFuel (lines.length + 1) bs re path lines).2 = true) :=
  ⟨fun fuel => readerFuel_batchsize_zero re path fuel lines,
    fun bs hbs => readerFuel_finishes hbs re path (lines.length + 1) lines
      (by omega)⟩

/-- Witness for C10 on a one-line file: three loop iterations at batch size
zero send three empty batches without terminating, while batch size one
terminates. -/
theorem c10_witness :
    readerFuel 3 0 false "w.jsonl" ["x"] =
      (List.replicate 3 (ProcessingStatus.data []), false) ∧
    (readerFuel 2 1 false "w.jsonl" ["x"]).2 = true :=
  ⟨(c10_batchsize_zero_diverges false "w.jsonl" ["x"]).1 3,
    (c10_batchsize_zero_diverges false "w.jsonl" ["x"]).2 1 (by decide)⟩

end Claims

end MtJsonlSpec
